import Mathlib

/-!
# Verification of the student-loan payoff flow's allocation engine

Shallow embedding of the pure computation in `src/student_loan_payoff.py`:
ledger rows, the loan dictionary (`CreateDictFromRows`), the interest-rate
ranking (`OrderLoansOnInterestRate`), the discretionary-budget calculator
(`CalcTotalAfterMinPayments`), the avalanche allocator (`TargetLoans`), the
payment-plan composer (`CalcTotalPaymentsForMonth`, `MakeSortedPaymentList`)
and the trend formatter inside `SendMessage`.

Monetary amounts are modelled as exact rationals: the Python code parses the
currency text with `float(s.replace("$", "").replace(",", ""))`; we work with
the exact decimal value of that text (IEEE-754 binary rounding is not
modelled).  `interest_rate` is kept as its raw text because the code only ever
uses it as a raw sort key.  Python dicts are modelled as association lists in
insertion order, where updating an existing key keeps its position.  The
unbounded `while` loop of `TargetLoans.run` is modelled with explicit fuel:
`none` means the loop has not finished within the given number of passes.
-/

/-- One raw ledger row `[loan_id, original_total, current_total,
interest_rate, min_payment]` as read from the sheet.  The three monetary
fields carry the exact decimal value of their currency text; `interest_rate`
stays raw text, exactly as the code keeps it. -/
structure Row where
  loan_id : String
  original_total : ℚ
  current_total : ℚ
  interest_rate : String
  min_payment : ℚ
deriving DecidableEq, Repr

/-- The per-loan dictionary value built by `CreateDictFromRows.run`. -/
structure LoanInfo where
  original_total : ℚ
  current_total : ℚ
  interest_rate : String
  min_payment : ℚ
deriving DecidableEq, Repr

/-- The value dict built for one row by `CreateDictFromRows.run`. -/
def Row.info (r : Row) : LoanInfo :=
  ⟨r.original_total, r.current_total, r.interest_rate, r.min_payment⟩

/-- Python dict assignment `d[k] = v` on an insertion-ordered association
list: an existing key keeps its position and gets the new value, a new key is
appended at the end. -/
def dictUpd {α : Type} (k : String) (v : α) : List (String × α) → List (String × α)
  | [] => [(k, v)]
  | e :: rest => if e.1 = k then (k, v) :: rest else e :: dictUpd k v rest

/-- `CreateDictFromRows.run`: builds `loan_dict[row[0]] = dict(...)` row by
row.  A duplicate `loan_id` silently overwrites the earlier entry. -/
def createDictFromRows (rows : List Row) : List (String × LoanInfo) :=
  rows.foldl (fun d r => dictUpd r.loan_id r.info d) []

/-- Python's `round(q * 100)` half-to-even rounding of the scaled amount, the
integer number of cents of `round(q, 2)` (exact-decimal model of the float
round). -/
def pyRoundCents (q : ℚ) : ℤ :=
  let x := q * 100
  let f := ⌊x⌋
  let r := x - (f : ℚ)
  if r < 1 / 2 then f
  else if 1 / 2 < r then f + 1
  else if f % 2 = 0 then f else f + 1

/-- Python's `round(q, 2)`: round half-to-even at cent precision. -/
def rnd2 (q : ℚ) : ℚ := (pyRoundCents q : ℚ) / 100

/-- `CalcTotalAfterMinPayments.run`: subtract every loan's `min_payment` from
the budget, then round the result to 2 decimals. -/
def calcTotalAfterMinPayments (loans : List (String × LoanInfo)) (budget : ℚ) : ℚ :=
  rnd2 (loans.foldl (fun b e => b - e.2.min_payment) budget)

/-- Sum of the `min_payment` fields of a loan dictionary. -/
def sumMin (loans : List (String × LoanInfo)) : ℚ :=
  (loans.map (fun e => e.2.min_payment)).sum

/-- Sum of the amounts recorded in a payments dictionary. -/
def sumPay (p : List (String × ℚ)) : ℚ :=
  (p.map Prod.snd).sum

/-- One pass of the `for loan in loans` body inside `TargetLoans.run`,
instrumented with a trace.  Returns the budget after the pass, the updated
`payments` dict, and the list of `payments[loan[0]] = amount` assignments the
pass performed, in order. -/
def passLoop : List Row → ℚ → List (String × ℚ) → ℚ × List (String × ℚ) × List (Row × ℚ)
  | [], b, p => (b, p, [])
  | r :: rs, b, p =>
    if 0 < r.current_total then
      let amount := if 0 ≤ b - r.current_total then r.current_total else b
      if 0 < amount then
        let rec2 := passLoop rs (b - amount) (dictUpd r.loan_id amount p)
        (rec2.1, rec2.2.1, (r, amount) :: rec2.2.2)
      else passLoop rs b p
    else passLoop rs b p

/-- The `while current_budget > 0` loop of `TargetLoans.run`, with explicit
fuel bounding the number of passes; `none` means the loop is still running
when the fuel is spent. -/
def targetLoansAux (loans : List Row) : Nat → ℚ → List (String × ℚ) → Option (List (String × ℚ))
  | 0, _, _ => none
  | fuel + 1, b, p =>
    if 0 < b then
      let s := passLoop loans b p
      targetLoansAux loans fuel s.1 s.2.1
    else some p

/-- `TargetLoans.run`: start from the discretionary budget and an empty
`payments` dict and run passes until the budget is spent (or fuel runs out). -/
def targetLoans (fuel : Nat) (loans : List Row) (budget : ℚ) : Option (List (String × ℚ)) :=
  targetLoansAux loans fuel budget []

/-- Python's `<` on strings: lexicographic comparison of the code-point
sequences. -/
def strLtB : List Char → List Char → Bool
  | [], [] => false
  | [], _ :: _ => true
  | _ :: _, [] => false
  | a :: as, b :: bs =>
    if a.val < b.val then true
    else if b.val < a.val then false
    else strLtB as bs

/-- Stable insertion of `x` into `l` for a descending sort with strict
comparator `lt`: `x` is placed before the first element it is not strictly
below, so an earlier element wins ties. -/
def insertDesc {α : Type} (lt : α → α → Bool) (x : α) : List α → List α
  | [] => [x]
  | y :: ys => if lt x y then y :: insertDesc lt x ys else x :: y :: ys

/-- Python's `sorted(l, key=key, reverse=True)` where `lt` compares the keys:
stable sort, descending (ties keep original order). -/
def sortDesc {α : Type} (lt : α → α → Bool) (l : List α) : List α :=
  l.foldr (insertDesc lt) []

/-- `OrderLoansOnInterestRate.run`: `sorted(rows, key=itemgetter(3),
reverse=True)` — the key is the raw `interest_rate` text, compared with
Python's string `<`. -/
def orderLoansOnInterestRate (rows : List Row) : List Row :=
  sortDesc (fun a b => strLtB a.interest_rate.data b.interest_rate.data) rows

/-- The per-loan dict after `CalcTotalPaymentsForMonth.run` added the
`payment` key. -/
structure PayInfo where
  original_total : ℚ
  current_total : ℚ
  interest_rate : String
  min_payment : ℚ
  payment : ℚ
deriving DecidableEq, Repr

/-- `CalcTotalPaymentsForMonth.run`: for every loan of the dictionary, set
`payment = round(min_payment + (targeted_loans[loan] if loan in
targeted_loans else 0), 2)`. -/
def calcTotalPaymentsForMonth (minLoans : List (String × LoanInfo))
    (targeted : List (String × ℚ)) : List (String × PayInfo) :=
  minLoans.map (fun e =>
    (e.1, { original_total := e.2.original_total
            current_total := e.2.current_total
            interest_rate := e.2.interest_rate
            min_payment := e.2.min_payment
            payment := rnd2 (e.2.min_payment + ((List.lookup e.1 targeted).getD 0)) }))

/-- One entry of the final presentation list: the loan's dict plus its
`loan_id`. -/
structure PaymentPlanEntry where
  loan_id : String
  original_total : ℚ
  current_total : ℚ
  interest_rate : String
  min_payment : ℚ
  payment : ℚ
deriving DecidableEq, Repr

/-- `MakeSortedPaymentList.run` turns one dict entry into a list entry
carrying its `loan_id`. -/
def toEntry (e : String × PayInfo) : PaymentPlanEntry :=
  ⟨e.1, e.2.original_total, e.2.current_total, e.2.interest_rate, e.2.min_payment, e.2.payment⟩

/-- `MakeSortedPaymentList.run`: attach each `loan_id` and sort by `payment`
descending (`sorted(..., key=itemgetter("payment"), reverse=True)`). -/
def makeSortedPaymentList (payments : List (String × PayInfo)) : List PaymentPlanEntry :=
  sortDesc (fun a b => decide (a.payment < b.payment)) (payments.map toEntry)

/-- Comma-grouping of a reversed digit string: after every three digits
coming from the right, insert a comma. -/
def commaRev : List Char → List Char
  | a :: b :: c :: d :: rest => a :: b :: c :: ',' :: commaRev (d :: rest)
  | l => l

/-- The integer part of a Python `f"{x:,}"` rendering: decimal digits with
thousands separators. -/
def groupComma (n : ℕ) : String :=
  String.mk ((commaRev (toString n).data.reverse).reverse)

/-- `f"{x:,}"` for a float holding an exact number `n` of cents: thousands
separators, and the shortest fraction part Python prints for such a value
(`.0` for a whole number, one digit when the cents are a multiple of ten,
two digits otherwise). -/
def formatCents (n : ℤ) : String :=
  let m := n.natAbs
  let ip := m / 100
  let fr := m % 100
  let frs :=
    if fr = 0 then "0"
    else if fr % 10 = 0 then toString (fr / 10)
    else if fr < 10 then "0" ++ toString fr
    else toString fr
  (if n < 0 then "-" else "") ++ groupComma ip ++ "." ++ frs

/-- `SendMessage.fv`: `round` the value to 2 decimals and render it with
`f"{floated:,}"`. -/
def fv (val : ℚ) : String := formatCents (pyRoundCents val)

/-- The `down_or_up` phrase of `SendMessage.run`: chosen by exact comparison
of the parsed totals, with the formatted absolute difference spliced in. -/
def downOrUp (current_total last_month_total : ℚ) : String :=
  if current_total < last_month_total then
    "down " ++ fv (last_month_total - current_total) ++ "🤩 from"
  else if current_total = last_month_total then "the same 😓 as"
  else "up " ++ fv (current_total - last_month_total) ++ " 😵 from"

/-- The allocator's map invariant: every recorded amount belongs to some loan
of the ranked sequence, is positive, and does not exceed that loan's
outstanding balance. -/
def PayInv (loans : List Row) (p : List (String × ℚ)) : Prop :=
  ∀ e ∈ p, ∃ r ∈ loans, r.loan_id = e.1 ∧ 0 < r.current_total ∧ 0 < e.2 ∧ e.2 ≤ r.current_total

/-- A whole-cent amount: an integer number of cents. -/
def isCents (q : ℚ) : Prop := ∃ n : ℤ, q = (n : ℚ) / 100

/-! ## Concrete sample data used by witnesses and counterexamples -/

/-- A single loan whose minimum payment is $99.994: the discretionary budget
for a $100 budget rounds up to one cent. -/
def roundingRow : Row := ⟨"A", 10000, 10, "5%", 49997/500⟩

/-- Two ledger rows sharing the `loan_id` "A" with different values. -/
def dupRow1 : Row := ⟨"A", 1, 100, "5%", 10⟩

/-- Second row with the duplicate id "A". -/
def dupRow2 : Row := ⟨"A", 2, 50, "6%", 20⟩

/-- A loan whose interest-rate text is "9.5%". -/
def rateRow95 : Row := ⟨"L1", 0, 1000, "9.5%", 0⟩

/-- A loan whose interest-rate text is "10.2%"; numerically the larger rate,
lexicographically the smaller string. -/
def rateRow102 : Row := ⟨"L2", 0, 2000, "10.2%", 0⟩

/-- A high-priority loan with a $10 balance. -/
def passRowA : Row := ⟨"A", 0, 10, "9%", 0⟩

/-- A lower-priority loan with a $5 balance. -/
def passRowB : Row := ⟨"B", 0, 5, "8%", 0⟩

/-- A single-loan ledger with whole-cent amounts: balance $1000, minimum
payment $50. -/
def centsRow : Row := ⟨"A", 1000, 1000, "6%", 50⟩

/-! ## Helper lemmas -/

/-- The subtraction loop of `CalcTotalAfterMinPayments.run` computes
`budget - sum(min_payment)`. -/
theorem foldl_sub_min (l : List (String × LoanInfo)) (b : ℚ) :
    l.foldl (fun b e => b - e.2.min_payment) b = b - sumMin l := by
  induction l generalizing b with
  | nil => simp [sumMin]
  | cons e l ih => simp [sumMin, ih, List.foldl_cons]; ring

/-- The rounded cents never exceed the floor of the scaled value plus one. -/
theorem pyRoundCents_le (q : ℚ) : pyRoundCents q ≤ ⌊q * 100⌋ + 1 := by
  simp only [pyRoundCents]
  split
  · omega
  · split
    · omega
    · split <;> omega

/-- The rounded cents are at least the floor of the scaled value. -/
theorem le_pyRoundCents (q : ℚ) : ⌊q * 100⌋ ≤ pyRoundCents q := by
  simp only [pyRoundCents]
  split
  · omega
  · split
    · omega
    · split <;> omega

/-- Rounding a negative amount to cents cannot make it positive. -/
theorem rnd2_nonpos {q : ℚ} (h : q < 0) : rnd2 q ≤ 0 := by
  have h1 : ⌊q * 100⌋ < 0 := by
    rw [Int.floor_lt]
    push_cast
    nlinarith
  have h2 : pyRoundCents q ≤ 0 := le_trans (pyRoundCents_le q) (by omega)
  have h3 : (pyRoundCents q : ℚ) ≤ 0 := by exact_mod_cast h2
  rw [rnd2]
  nlinarith

/-- A pass over loans none of which has a positive balance does nothing. -/
theorem passLoop_all_paid {rows : List Row} (h : ∀ r ∈ rows, ¬ 0 < r.current_total)
    (b : ℚ) (p : List (String × ℚ)) : passLoop rows b p = (b, p, []) := by
  induction rows with
  | nil => rfl
  | cons r rs ih =>
    have hr : ¬ 0 < r.current_total := h r (List.mem_cons_self r rs)
    rw [passLoop, if_neg hr]
    exact ih (fun x hx => h x (List.mem_cons_of_mem r hx)) 

/-! ## C1 — termination of the allocation loop -/

/-- C1: REFUTED (code bug).  When no loan has a positive outstanding balance
— in particular for an empty loan sequence — but the discretionary budget is
positive, the `while current_budget > 0` loop of `TargetLoans.run` never
terminates: no amount of fuel makes it return. -/
theorem c1_allocator_diverges (loans : List Row) (b : ℚ)
    (h : ∀ r ∈ loans, ¬ 0 < r.current_total) (hb : 0 < b) :
    ∀ fuel, targetLoans fuel loans b = none := by
  intro fuel
  rw [targetLoans]
  induction fuel with
  | zero => rfl
  | succ n ih =>
    simp only [targetLoansAux]
    rw [if_pos hb]
    simpa [passLoop_all_paid h] using ih

/-- Witness: with an empty loan list and budget 100, five passes of fuel do
not finish (nor does any other amount, by the theorem). -/
theorem c1_allocator_diverges_witness : targetLoans 5 [] 100 = none :=
  c1_allocator_diverges [] 100 (by simp) (by norm_num) 5

/-! ## C6 — nonpositive discretionary budget allocates nothing -/

/-- C6: whenever the discretionary budget (budget minus the sum of all
minimum payments, rounded to 2 decimals) is `≤ 0` — in particular whenever
the budget is below the sum of the minimum payments — the avalanche
allocation map is empty, and the allocator returns normally. -/
theorem c6_nonpositive_discretionary_empty (rows : List Row) (budget : ℚ)
    (fuel : ℕ) (hf : 1 ≤ fuel) :
    (calcTotalAfterMinPayments (createDictFromRows rows) budget ≤ 0 →
      targetLoans fuel (orderLoansOnInterestRate rows)
        (calcTotalAfterMinPayments (createDictFromRows rows) budget) = some []) ∧
    (budget < sumMin (createDictFromRows rows) →
      calcTotalAfterMinPayments (createDictFromRows rows) budget ≤ 0) := by
  constructor
  · intro h
    obtain ⟨f, rfl⟩ : ∃ f, fuel = f + 1 := ⟨fuel - 1, by omega⟩
    rw [targetLoans]
    simp only [targetLoansAux]
    rw [if_neg (not_lt.mpr h)]
  · intro h
    rw [calcTotalAfterMinPayments, foldl_sub_min]
    exact rnd2_nonpos (by linarith)

/-- Witness: one loan with minimum payment $10 and budget $5: the budget is
below the minimums and the avalanche allocation comes back empty. -/
theorem c6_nonpositive_discretionary_empty_witness :
    (5 : ℚ) < sumMin (createDictFromRows [dupRow1]) ∧
    targetLoans 3 (orderLoansOnInterestRate [dupRow1])
      (calcTotalAfterMinPayments (createDictFromRows [dupRow1]) 5) = some [] := by
  have hs : (5 : ℚ) < sumMin (createDictFromRows [dupRow1]) := by
    norm_num [createDictFromRows, dictUpd, sumMin, dupRow1, Row.info]
  have h := c6_nonpositive_discretionary_empty [dupRow1] 5 3 (by norm_num)
  exact ⟨hs, h.1 (h.2 hs)⟩

/-- Step equation: a loan with positive balance fully covered by the budget
is allocated its whole outstanding balance. -/
theorem passLoop_cons_full (r : Row) (rs : List Row) (b : ℚ) (p : List (String × ℚ))
    (hr : 0 < r.current_total) (hble : 0 ≤ b - r.current_total) :
    passLoop (r :: rs) b p =
      ((passLoop rs (b - r.current_total) (dictUpd r.loan_id r.current_total p)).1,
       (passLoop rs (b - r.current_total) (dictUpd r.loan_id r.current_total p)).2.1,
       (r, r.current_total) ::
         (passLoop rs (b - r.current_total) (dictUpd r.loan_id r.current_total p)).2.2) := by
  simp only [passLoop, if_pos hr, if_pos hble]

/-- Step equation: a loan with positive balance larger than the positive
remaining budget receives the whole remaining budget, leaving zero. -/
theorem passLoop_cons_capped (r : Row) (rs : List Row) (b : ℚ) (p : List (String × ℚ))
    (hr : 0 < r.current_total) (hble : ¬ 0 ≤ b - r.current_total) (hb : 0 < b) :
    passLoop (r :: rs) b p =
      ((passLoop rs 0 (dictUpd r.loan_id b p)).1,
       (passLoop rs 0 (dictUpd r.loan_id b p)).2.1,
       (r, b) :: (passLoop rs 0 (dictUpd r.loan_id b p)).2.2) := by
  simp only [passLoop, if_pos hr, if_neg hble, if_pos hb, sub_self]

/-- Step equation: a loan without positive balance is skipped. -/
theorem passLoop_cons_zero (r : Row) (rs : List Row) (b : ℚ) (p : List (String × ℚ))
    (hr : ¬ 0 < r.current_total) :
    passLoop (r :: rs) b p = passLoop rs b p := by
  simp only [passLoop, if_neg hr]

/-- Step equation: with nonpositive remaining budget a positive-balance loan
is also skipped (the computed amount is the nonpositive budget). -/
theorem passLoop_cons_spent (r : Row) (rs : List Row) (b : ℚ) (p : List (String × ℚ))
    (hr : 0 < r.current_total) (hb : ¬ 0 < b) :
    passLoop (r :: rs) b p = passLoop rs b p := by
  have hble : ¬ 0 ≤ b - r.current_total := by
    intro hc
    exact hb (lt_of_lt_of_le hr (by linarith))
  simp only [passLoop, if_pos hr, if_neg hble, if_neg hb]

/-- A pass started with a spent budget does nothing at all. -/
theorem passLoop_nonpos (rows : List Row) (b : ℚ) (p : List (String × ℚ))
    (hb : b ≤ 0) : passLoop rows b p = (b, p, []) := by
  induction rows with
  | nil => rfl
  | cons r rs ih =>
    by_cases hr : 0 < r.current_total
    · rw [passLoop_cons_spent r rs b p hr (not_lt.mpr hb)]
      exact ih
    · rw [passLoop_cons_zero r rs b p hr]
      exact ih

/-- Membership after a Python dict assignment: the new pair, or an old one. -/
theorem dictUpd_mem {α : Type} {k : String} {v : α} {p : List (String × α)}
    {e : String × α} (h : e ∈ dictUpd k v p) : e = (k, v) ∨ e ∈ p := by
  induction p with
  | nil => simpa [dictUpd] using h
  | cons f rest ih =>
    rw [dictUpd] at h
    by_cases hf : f.1 = k
    · rw [if_pos hf] at h
      rcases List.mem_cons.mp h with h1 | h1
      · exact Or.inl h1
      · exact Or.inr (List.mem_cons_of_mem f h1)
    · rw [if_neg hf] at h
      rcases List.mem_cons.mp h with h1 | h1
      · exact Or.inr (h1 ▸ List.mem_cons_self f rest)
      · rcases ih h1 with h2 | h2
        · exact Or.inl h2
        · exact Or.inr (List.mem_cons_of_mem f h2)

/-- One pass preserves the allocator's map invariant. -/
theorem passLoop_inv (rows loans : List Row) (b : ℚ) (p : List (String × ℚ))
    (hsub : ∀ r ∈ rows, r ∈ loans) (hp : PayInv loans p) :
    PayInv loans (passLoop rows b p).2.1 := by
  induction rows generalizing b p with
  | nil => exact hp
  | cons r rs ih =>
    have hrl : r ∈ loans := hsub r (List.mem_cons_self r rs)
    have hsub2 : ∀ x ∈ rs, x ∈ loans := fun x hx => hsub x (List.mem_cons_of_mem r hx)
    by_cases hr : 0 < r.current_total
    · by_cases hb : 0 < b
      · by_cases hble : 0 ≤ b - r.current_total
        · rw [passLoop_cons_full r rs b p hr hble]
          refine ih _ _ hsub2 ?_
          intro e he
          rcases dictUpd_mem he with rfl | he2
          · exact ⟨r, hrl, rfl, hr, hr, le_refl _⟩
          · exact hp e he2
        · rw [passLoop_cons_capped r rs b p hr hble hb]
          refine ih _ _ hsub2 ?_
          intro e he
          rcases dictUpd_mem he with rfl | he2
          · exact ⟨r, hrl, rfl, hr, hb, by linarith [not_le.mp hble]⟩
          · exact hp e he2
      · rw [passLoop_cons_spent r rs b p hr hb]
        exact ih b p hsub2 hp
    · rw [passLoop_cons_zero r rs b p hr]
      exact ih b p hsub2 hp

/-! ## C7 — no loan is allocated more than its outstanding balance -/

/-- C7: at every step of the allocation loop — any fuel, any remaining
budget, any intermediate `payments` map satisfying the invariant — every
amount the allocator has recorded is positive and bounded by the balance of a
loan of the sequence carrying that `loan_id`; in particular a loan with zero
`current_total` never receives avalanche money. -/
theorem c7_alloc_le_current_total (loans : List Row) (fuel : ℕ) (b : ℚ)
    (p res : List (String × ℚ)) (hp : PayInv loans p)
    (hrun : targetLoansAux loans fuel b p = some res) : PayInv loans res := by
  induction fuel generalizing b p with
  | zero => exact absurd hrun (by simp [targetLoansAux])
  | succ n ih =>
    rw [targetLoansAux] at hrun
    by_cases hb : 0 < b
    · rw [if_pos hb] at hrun
      exact ih _ _ (passLoop_inv loans loans b p (fun r hr => hr) hp) hrun
    · rw [if_neg hb] at hrun
      exact (Option.some_inj.mp hrun) ▸ hp

/-- Witness: one loan with a $10 balance, discretionary budget $4: the
recorded $4 allocation is positive and within the loan's balance. -/
theorem c7_alloc_le_current_total_witness :
    ∃ r ∈ [passRowA], r.loan_id = "A" ∧ 0 < r.current_total ∧
      0 < (4 : ℚ) ∧ (4 : ℚ) ≤ r.current_total := by
  have h := c7_alloc_le_current_total [passRowA] 2 4 [] [("A", 4)]
    (by simp [PayInv])
    (by norm_num [targetLoansAux, passLoop, dictUpd, passRowA])
  exact h ("A", 4) (by simp)

/-- A pass over a concatenation is the pass over the first part followed by
the pass over the second part from the intermediate state; the traces
concatenate. -/
theorem passLoop_append (xs ys : List Row) (b : ℚ) (p : List (String × ℚ)) :
    passLoop (xs ++ ys) b p =
      ((passLoop ys (passLoop xs b p).1 (passLoop xs b p).2.1).1,
       (passLoop ys (passLoop xs b p).1 (passLoop xs b p).2.1).2.1,
       (passLoop xs b p).2.2 ++
         (passLoop ys (passLoop xs b p).1 (passLoop xs b p).2.1).2.2) := by
  induction xs generalizing b p with
  | nil => simp [passLoop]
  | cons r rs ih =>
    by_cases hr : 0 < r.current_total
    · by_cases hb : 0 < b
      · by_cases hble : 0 ≤ b - r.current_total
        · rw [List.cons_append, passLoop_cons_full r (rs ++ ys) b p hr hble,
            passLoop_cons_full r rs b p hr hble, ih]
          simp
        · rw [List.cons_append, passLoop_cons_capped r (rs ++ ys) b p hr hble hb,
            passLoop_cons_capped r rs b p hr hble hb, ih]
          simp
      · rw [List.cons_append, passLoop_cons_spent r (rs ++ ys) b p hr hb,
          passLoop_cons_spent r rs b p hr hb, ih]
    · rw [List.cons_append, passLoop_cons_zero r (rs ++ ys) b p hr,
        passLoop_cons_zero r rs b p hr, ih]

/-- The rows recorded by one pass form a subsequence of the scanned rows. -/
theorem passLoop_trace_sublist (rows : List Row) (b : ℚ) (p : List (String × ℚ)) :
    ((passLoop rows b p).2.2.map Prod.fst).Sublist rows := by
  induction rows generalizing b p with
  | nil => simp [passLoop]
  | cons r rs ih =>
    by_cases hr : 0 < r.current_total
    · by_cases hb : 0 < b
      · by_cases hble : 0 ≤ b - r.current_total
        · rw [passLoop_cons_full r rs b p hr hble]
          exact List.Sublist.cons₂ r (ih _ _)
        · rw [passLoop_cons_capped r rs b p hr hble hb]
          exact List.Sublist.cons₂ r (ih _ _)
      · rw [passLoop_cons_spent r rs b p hr hb]
        exact List.Sublist.cons r (ih _ _)
    · rw [passLoop_cons_zero r rs b p hr]
      exact List.Sublist.cons r (ih _ _)

/-! ## C2 — strict priority order within a scan pass -/

/-- C2: within one scan pass over the ranked sequence (with pairwise distinct
loan ids), if a later loan `B` receives any extra money then every earlier
loan `A` with positive outstanding balance was allocated exactly its whole
balance in that pass; moreover the pass records at most one allocation per
loan, so no loan is double-paid within the pass. -/
theorem c2_pass_priority (pre mid post : List Row) (A B : Row) (b aB : ℚ)
    (p : List (String × ℚ))
    (hnd : ((pre ++ (A :: (mid ++ (B :: post)))).map Row.loan_id).Nodup)
    (hA : 0 < A.current_total)
    (hB : (B, aB) ∈ (passLoop (pre ++ (A :: (mid ++ (B :: post)))) b p).2.2) :
    (A, A.current_total) ∈ (passLoop (pre ++ (A :: (mid ++ (B :: post)))) b p).2.2 ∧
    ((passLoop (pre ++ (A :: (mid ++ (B :: post)))) b p).2.2.map
      (fun e => e.1.loan_id)).Nodup := by
  have hndmap : ((passLoop (pre ++ (A :: (mid ++ (B :: post)))) b p).2.2.map
      (fun e => e.1.loan_id)).Nodup := by
    have h1 : ((passLoop (pre ++ (A :: (mid ++ (B :: post)))) b p).2.2.map
        (fun e => e.1.loan_id)) =
        (((passLoop (pre ++ (A :: (mid ++ (B :: post)))) b p).2.2.map Prod.fst).map
          Row.loan_id) := by
      rw [List.map_map]
      rfl
    rw [h1]
    exact List.Nodup.sublist
      (List.Sublist.map Row.loan_id (passLoop_trace_sublist _ b p)) hnd
  refine ⟨?_, hndmap⟩
  have hsplit := passLoop_append pre (A :: (mid ++ B :: post)) b p
  rw [hsplit] at hB ⊢
  have hBrest : B ∈ mid ++ B :: post :=
    List.mem_append.mpr (Or.inr (List.mem_cons_self B post))
  rcases List.mem_append.mp hB with hpre | htA
  · exfalso
    have hBpre : B ∈ pre := by
      have h2 : B ∈ (passLoop pre b p).2.2.map Prod.fst :=
        List.mem_map_of_mem Prod.fst hpre
      exact (passLoop_trace_sublist pre b p).subset h2
    have hnd2 := hnd
    rw [List.map_append] at hnd2
    have hdisj := (List.nodup_append.mp hnd2).2.2
    exact hdisj (List.mem_map_of_mem Row.loan_id hBpre)
      (List.mem_map_of_mem Row.loan_id (List.mem_cons_of_mem A hBrest))
  · apply List.mem_append.mpr
    right
    by_cases hble : 0 ≤ (passLoop pre b p).1 - A.current_total
    · rw [passLoop_cons_full A (mid ++ B :: post) _ _ hA hble]
      exact List.mem_cons_self _ _
    · by_cases hb1 : 0 < (passLoop pre b p).1
      · exfalso
        rw [passLoop_cons_capped A (mid ++ B :: post) _ _ hA hble hb1,
          passLoop_nonpos (mid ++ B :: post) 0 _ (le_refl 0)] at htA
        simp only [List.mem_singleton, Prod.mk.injEq] at htA
        have hnd2 := hnd
        rw [List.map_append] at hnd2
        have hnd3 := (List.nodup_append.mp hnd2).2.1
        rw [List.map_cons] at hnd3
        have hA_notin := (List.nodup_cons.mp hnd3).1
        apply hA_notin
        rw [← htA.1]
        exact List.mem_map_of_mem Row.loan_id hBrest
      · rw [passLoop_nonpos (A :: (mid ++ B :: post)) _ _ (not_lt.mp hb1)] at htA
        simp at htA

/-- Witness: two loans with balances $10 and $5 and a $12 pass budget: the
later loan receives $2 only after the earlier one was allocated its full $10,
and each loan is recorded once. -/
theorem c2_pass_priority_witness :
    (passRowA, passRowA.current_total) ∈
      (passLoop ([] ++ (passRowA :: ([] ++ (passRowB :: [])))) 12 []).2.2 ∧
    ((passLoop ([] ++ (passRowA :: ([] ++ (passRowB :: [])))) 12 []).2.2.map
      (fun e => e.1.loan_id)).Nodup :=
  c2_pass_priority [] [] [] passRowA passRowB 12 2 []
    (by simp [passRowA, passRowB])
    (by norm_num [passRowA])
    (by norm_num [passLoop, dictUpd, passRowA, passRowB])

/-- A dict assignment adds at most the new amount to the recorded sum when
the old values are nonnegative. -/
theorem dictUpd_sumPay {k : String} {v : ℚ} {p : List (String × ℚ)}
    (hnn : ∀ e ∈ p, 0 ≤ e.2) : sumPay (dictUpd k v p) ≤ sumPay p + v := by
  induction p with
  | nil => simp [dictUpd, sumPay]
  | cons f rest ih =>
    have hf : 0 ≤ f.2 := hnn f (List.mem_cons_self f rest)
    rw [dictUpd]
    by_cases hk : f.1 = k
    · rw [if_pos hk]
      simp only [sumPay, List.map_cons, List.sum_cons]
      linarith
    · rw [if_neg hk]
      have := ih (fun e he => hnn e (List.mem_cons_of_mem f he))
      simp only [sumPay, List.map_cons, List.sum_cons] at this ⊢
      linarith

/-- A dict assignment of a nonnegative amount keeps all amounts nonnegative. -/
theorem dictUpd_nonneg {k : String} {v : ℚ} {p : List (String × ℚ)}
    (hnn : ∀ e ∈ p, 0 ≤ e.2) (hv : 0 ≤ v) :
    ∀ e ∈ dictUpd k v p, 0 ≤ e.2 := by
  intro e he
  rcases dictUpd_mem he with rfl | he2
  · exact hv
  · exact hnn e he2

/-- The remaining budget never becomes negative during a pass. -/
theorem passLoop_budget_nonneg (rows : List Row) (b : ℚ) (p : List (String × ℚ))
    (hb : 0 ≤ b) : 0 ≤ (passLoop rows b p).1 := by
  induction rows generalizing b p with
  | nil => exact hb
  | cons r rs ih =>
    by_cases hr : 0 < r.current_total
    · by_cases hbp : 0 < b
      · by_cases hble : 0 ≤ b - r.current_total
        · rw [passLoop_cons_full r rs b p hr hble]
          exact ih _ _ hble
        · rw [passLoop_cons_capped r rs b p hr hble hbp]
          exact ih _ _ (le_refl 0)
      · rw [passLoop_cons_spent r rs b p hr hbp]
        exact ih _ _ hb
    · rw [passLoop_cons_zero r rs b p hr]
      exact ih _ _ hb

/-- During a pass the recorded sum grows by at most what the budget shrinks,
and all recorded amounts stay nonnegative. -/
theorem passLoop_sumPay (rows : List Row) (b : ℚ) (p : List (String × ℚ))
    (hnn : ∀ e ∈ p, 0 ≤ e.2) :
    sumPay (passLoop rows b p).2.1 + (passLoop rows b p).1 ≤ sumPay p + b ∧
    ∀ e ∈ (passLoop rows b p).2.1, 0 ≤ e.2 := by
  induction rows generalizing b p with
  | nil => exact ⟨le_refl _, hnn⟩
  | cons r rs ih =>
    by_cases hr : 0 < r.current_total
    · by_cases hbp : 0 < b
      · by_cases hble : 0 ≤ b - r.current_total
        · rw [passLoop_cons_full r rs b p hr hble]
          have hupd := dictUpd_sumPay (k := r.loan_id) (v := r.current_total) hnn
          have hnn2 := dictUpd_nonneg (k := r.loan_id) hnn (le_of_lt hr)
          have hrec := ih (b - r.current_total) _ hnn2
          exact ⟨by linarith [hrec.1], hrec.2⟩
        · rw [passLoop_cons_capped r rs b p hr hble hbp]
          have hupd := dictUpd_sumPay (k := r.loan_id) (v := b) hnn
          have hnn2 := dictUpd_nonneg (k := r.loan_id) hnn (le_of_lt hbp)
          have hrec := ih 0 _ hnn2
          exact ⟨by linarith [hrec.1], hrec.2⟩
      · rw [passLoop_cons_spent r rs b p hr hbp]
        exact ih b p hnn
    · rw [passLoop_cons_zero r rs b p hr]
      exact ih b p hnn

/-- Whatever the allocator returns, the recorded sum is bounded by the sum it
started with plus the starting budget (when that budget is nonnegative). -/
theorem targetLoansAux_sumPay (loans : List Row) (fuel : ℕ) (b : ℚ)
    (p res : List (String × ℚ)) (hb : 0 ≤ b) (hnn : ∀ e ∈ p, 0 ≤ e.2)
    (hrun : targetLoansAux loans fuel b p = some res) :
    sumPay res ≤ sumPay p + b := by
  induction fuel generalizing b p with
  | zero => exact absurd hrun (by simp [targetLoansAux])
  | succ n ih =>
    rw [targetLoansAux] at hrun
    by_cases hbp : 0 < b
    · rw [if_pos hbp] at hrun
      have hpass := passLoop_sumPay loans b p hnn
      have hb2 := passLoop_budget_nonneg loans b p hb
      have := ih _ _ hb2 hpass.2 hrun
      linarith [hpass.1]
    · rw [if_neg hbp] at hrun
      rw [← Option.some_inj.mp hrun]
      linarith

/-- Whole-cent amounts are closed under subtraction. -/
theorem isCents_sub {a b : ℚ} (ha : isCents a) (hb : isCents b) : isCents (a - b) := by
  obtain ⟨m, rfl⟩ := ha
  obtain ⟨n, rfl⟩ := hb
  exact ⟨m - n, by push_cast; ring⟩

/-- Whole-cent amounts are closed under addition. -/
theorem isCents_add {a b : ℚ} (ha : isCents a) (hb : isCents b) : isCents (a + b) := by
  obtain ⟨m, rfl⟩ := ha
  obtain ⟨n, rfl⟩ := hb
  exact ⟨m + n, by push_cast; ring⟩

/-- A sum of whole-cent minimum payments is a whole-cent amount. -/
theorem isCents_sumMin {d : List (String × LoanInfo)}
    (h : ∀ e ∈ d, isCents e.2.min_payment) : isCents (sumMin d) := by
  induction d with
  | nil => exact ⟨0, by norm_num [sumMin]⟩
  | cons e rest ih =>
    have h1 : sumMin (e :: rest) = e.2.min_payment + sumMin rest := by
      simp [sumMin]
    rw [h1]
    exact isCents_add (h e (List.mem_cons_self e rest))
      (ih (fun f hf => h f (List.mem_cons_of_mem e hf)))

/-- Rounding to cents leaves a whole-cent amount unchanged. -/
theorem rnd2_cents {q : ℚ} (h : isCents q) : rnd2 q = q := by
  obtain ⟨n, rfl⟩ := h
  have hx : ((n : ℚ) / 100) * 100 = (n : ℚ) := by field_simp
  rw [rnd2]
  simp only [pyRoundCents, hx, Int.floor_intCast, sub_self]
  norm_num

/-- Every entry of the loan dictionary comes from some ledger row. -/
theorem createDict_mem {rows : List Row} {e : String × LoanInfo}
    (he : e ∈ createDictFromRows rows) : ∃ r ∈ rows, e = (r.loan_id, r.info) := by
  rw [createDictFromRows] at he
  have main : ∀ (rs : List Row) (d : List (String × LoanInfo)),
      e ∈ rs.foldl (fun d r => dictUpd r.loan_id r.info d) d →
      e ∈ d ∨ ∃ r ∈ rs, e = (r.loan_id, r.info) := by
    intro rs
    induction rs with
    | nil => exact fun d h => Or.inl h
    | cons r rs ih =>
      intro d h
      rcases ih _ h with h1 | h1
      · rcases dictUpd_mem h1 with h2 | h2
        · exact Or.inr ⟨r, List.mem_cons_self r rs, h2⟩
        · exact Or.inl h2
      · obtain ⟨r2, hr2, he2⟩ := h1
        exact Or.inr ⟨r2, List.mem_cons_of_mem r hr2, he2⟩
  rcases main rows [] he with h1 | h1
  · exact absurd h1 (List.not_mem_nil e)
  · exact h1

/-! ## C3 — the allocator can overspend the budget by a rounding step -/

/-- C3: REFUTED as stated.  One loan with minimum payment $99.994 and budget
$100: the discretionary budget $0.006 rounds UP to one cent, the allocator
records that cent, and minimums plus extras total $100.004 > $100. -/
theorem c3_overspend_counterexample :
    targetLoans 2 (orderLoansOnInterestRate [roundingRow])
      (calcTotalAfterMinPayments (createDictFromRows [roundingRow]) 100) =
      some [("A", 1 / 100)] ∧
    100 < sumMin (createDictFromRows [roundingRow]) + sumPay [("A", 1 / 100)] := by
  constructor
  · norm_num [targetLoans, targetLoansAux, passLoop, dictUpd,
      calcTotalAfterMinPayments, rnd2, pyRoundCents, createDictFromRows,
      orderLoansOnInterestRate, sortDesc, insertDesc, sumMin, roundingRow, Row.info]
  · norm_num [sumMin, sumPay, createDictFromRows, dictUpd, roundingRow, Row.info]

/-- C3 amended: when the budget and every minimum payment are whole-cent
amounts and the budget covers the minimum payments, the minimum payments plus
all recorded avalanche extras never exceed the budget. -/
theorem c3_no_overspend_cents (rows : List Row) (budget : ℚ) (fuel : ℕ)
    (res : List (String × ℚ)) (hb : isCents budget)
    (hm : ∀ r ∈ rows, isCents r.min_payment)
    (hge : sumMin (createDictFromRows rows) ≤ budget)
    (hrun : targetLoans fuel (orderLoansOnInterestRate rows)
      (calcTotalAfterMinPayments (createDictFromRows rows) budget) = some res) :
    sumMin (createDictFromRows rows) + sumPay res ≤ budget := by
  have hmd : ∀ e ∈ createDictFromRows rows, isCents e.2.min_payment := by
    intro e he
    obtain ⟨r, hr, rfl⟩ := createDict_mem he
    exact hm r hr
  have hdisc : calcTotalAfterMinPayments (createDictFromRows rows) budget =
      budget - sumMin (createDictFromRows rows) := by
    rw [calcTotalAfterMinPayments, foldl_sub_min]
    exact rnd2_cents (isCents_sub hb (isCents_sumMin hmd))
  rw [targetLoans, hdisc] at hrun
  have hsum := targetLoansAux_sumPay (orderLoansOnInterestRate rows) fuel
    (budget - sumMin (createDictFromRows rows)) [] res (by linarith)
    (by simp) hrun
  have h0 : sumPay ([] : List (String × ℚ)) = 0 := by simp [sumPay]
  linarith

/-- Witness for the amended claim: one loan (balance $1000, minimum $50),
budget $300: the allocator records $250 and $50 + $250 ≤ $300. -/
theorem c3_no_overspend_cents_witness :
    sumMin (createDictFromRows [centsRow]) + sumPay [("A", 250)] ≤ 300 :=
  c3_no_overspend_cents [centsRow] 300 2 [("A", 250)]
    ⟨30000, by norm_num⟩
    (by
      intro r hr
      rw [List.mem_singleton] at hr
      exact ⟨5000, by norm_num [hr, centsRow]⟩)
    (by norm_num [sumMin, createDictFromRows, dictUpd, centsRow, Row.info])
    (by norm_num [targetLoans, targetLoansAux, passLoop, dictUpd,
      calcTotalAfterMinPayments, rnd2, pyRoundCents, createDictFromRows,
      orderLoansOnInterestRate, sortDesc, insertDesc, sumMin, centsRow, Row.info])

/-- Looking a key up after a dict assignment: the assigned key yields the new
value, any other key is unchanged. -/
theorem lookup_dictUpd {α : Type} (k k2 : String) (v : α) (d : List (String × α)) :
    (dictUpd k v d).lookup k2 = if k2 = k then some v else d.lookup k2 := by
  induction d with
  | nil =>
    by_cases h : k2 = k
    · subst h
      simp [dictUpd, List.lookup]
    · simp [dictUpd, List.lookup, beq_false_of_ne h, h]
  | cons f rest ih =>
    obtain ⟨fk, fv⟩ := f
    rw [dictUpd]
    by_cases hf : fk = k
    · subst hf
      rw [if_pos rfl]
      by_cases h : k2 = fk
      · subst h
        simp [List.lookup]
      · simp [List.lookup, beq_false_of_ne h, h]
    · rw [if_neg hf]
      by_cases h : k2 = fk
      · subst h
        simp [List.lookup, hf]
      · simp only [List.lookup, beq_false_of_ne h]
        exact ih

/-- Folding the dict construction: the value found for a key is the one of
the LAST row with that id, falling back to the starting dict. -/
theorem createDict_lookup_aux (rs : List Row) (d : List (String × LoanInfo)) (k : String) :
    (rs.foldl (fun d r => dictUpd r.loan_id r.info d) d).lookup k =
      ((rs.reverse.find? (fun r => r.loan_id == k)).map Row.info).or (d.lookup k) := by
  induction rs generalizing d with
  | nil => simp
  | cons r rs ih =>
    rw [List.foldl_cons, ih, List.reverse_cons, List.find?_append]
    rw [lookup_dictUpd]
    by_cases h : r.loan_id = k
    · simp [List.find?, h, Option.map_or', Option.or_assoc]
    · have h2 : ¬ k = r.loan_id := fun hc => h hc.symm
      simp [List.find?, (by simpa using h : (r.loan_id == k) = false),
        Option.or_none, h2]

/-- The keys seen after a dict assignment. -/
theorem dictUpd_keys_mem {α : Type} (x k : String) (v : α) (d : List (String × α)) :
    x ∈ (dictUpd k v d).map Prod.fst ↔ x ∈ d.map Prod.fst ∨ x = k := by
  induction d with
  | nil => simp [dictUpd]
  | cons f rest ih =>
    rw [dictUpd]
    by_cases hf : f.1 = k
    · rw [if_pos hf]
      simp only [List.map_cons, List.mem_cons]
      constructor
      · rintro (h | h)
        · exact Or.inr h
        · exact Or.inl (Or.inr h)
      · rintro ((h | h) | h)
        · exact Or.inl (h.trans hf)
        · exact Or.inr h
        · exact Or.inl h
    · rw [if_neg hf]
      simp only [List.map_cons, List.mem_cons, ih]
      tauto

/-- A dict assignment preserves distinctness of the keys. -/
theorem dictUpd_keys_nodup {α : Type} (k : String) (v : α) (d : List (String × α))
    (h : (d.map Prod.fst).Nodup) : ((dictUpd k v d).map Prod.fst).Nodup := by
  induction d with
  | nil => simp [dictUpd]
  | cons f rest ih =>
    rw [List.map_cons] at h
    have h1 := (List.nodup_cons.mp h).1
    have h2 := (List.nodup_cons.mp h).2
    rw [dictUpd]
    by_cases hf : f.1 = k
    · rw [if_pos hf]
      rw [List.map_cons, List.nodup_cons]
      exact ⟨hf ▸ h1, h2⟩
    · rw [if_neg hf]
      rw [List.map_cons, List.nodup_cons]
      refine ⟨?_, ih h2⟩
      rw [dictUpd_keys_mem]
      rintro (hc | hc)
      · exact h1 hc
      · exact hf (hc ▸ rfl)

/-- The loan dictionary always has pairwise-distinct keys. -/
theorem createDict_keys_nodup (rows : List Row) :
    ((createDictFromRows rows).map Prod.fst).Nodup := by
  rw [createDictFromRows]
  have main : ∀ (rs : List Row) (d : List (String × LoanInfo)),
      (d.map Prod.fst).Nodup →
      ((rs.foldl (fun d r => dictUpd r.loan_id r.info d) d).map Prod.fst).Nodup := by
    intro rs
    induction rs with
    | nil => exact fun d h => h
    | cons r rs ih =>
      intro d h
      exact ih _ (dictUpd_keys_nodup r.loan_id r.info d h)
  exact main rows [] (by simp)

/-! ## C4 — duplicate loan ids are silently overwritten, not rejected -/

/-- C4: REFUTED as stated.  Feeding two rows with the same `loan_id` "A" does
not abort anything: `CreateDictFromRows` returns normally with a single
entry holding the second row's values — the first row has been silently
overwritten. -/
theorem c4_duplicate_id_counterexample :
    createDictFromRows [dupRow1, dupRow2] = [("A", dupRow2.info)] ∧
    dupRow2.info ≠ dupRow1.info := by
  constructor
  · norm_num [createDictFromRows, dictUpd, dupRow1, dupRow2, Row.info]
  · norm_num [Row.info, dupRow1, dupRow2]

/-- C4 amended: on duplicate `loan_id`s no error is raised; the dictionary
keeps one entry per id — the value of the LAST ledger row carrying that id —
and its key list is duplicate-free. -/
theorem c4_last_row_wins (rows : List Row) (k : String) :
    (createDictFromRows rows).lookup k =
      (rows.reverse.find? (fun r => r.loan_id == k)).map Row.info ∧
    ((createDictFromRows rows).map Prod.fst).Nodup := by
  constructor
  · rw [createDictFromRows, createDict_lookup_aux]
    simp
  · exact createDict_keys_nodup rows

/-! ## C5 — the ranking sorts the interest-rate TEXT, not the number -/

/-- C5: REFUTED (code bug).  `OrderLoansOnInterestRate` compares the raw
`interest_rate` strings: "9.5%" sorts above "10.2%" because '9' > '1' as
characters, so the loan with the numerically smaller rate (9.5 < 10.2) is
ranked first — not the descending numeric order the avalanche method needs. -/
theorem c5_lexicographic_rate_bug :
    orderLoansOnInterestRate [rateRow95, rateRow102] = [rateRow95, rateRow102] ∧
    rateRow95.interest_rate = "9.5%" ∧ rateRow102.interest_rate = "10.2%" ∧
    (9.5 : ℚ) < 10.2 := by
  have hlt : strLtB rateRow95.interest_rate.data rateRow102.interest_rate.data = false := by
    decide
  refine ⟨?_, rfl, rfl, by norm_num⟩
  simp [orderLoansOnInterestRate, sortDesc, insertDesc, hlt]

/-- Inserting an element permutes consing it in front. -/
theorem insertDesc_perm {α : Type} (lt : α → α → Bool) (x : α) (l : List α) :
    (insertDesc lt x l).Perm (x :: l) := by
  induction l with
  | nil => exact List.Perm.refl _
  | cons y ys ih =>
    rw [insertDesc]
    by_cases h : lt x y = true
    · rw [if_pos h]
      exact (ih.cons y).trans (List.Perm.swap x y ys)
    · rw [if_neg h]

/-- The stable descending sort permutes its input. -/
theorem sortDesc_perm {α : Type} (lt : α → α → Bool) (l : List α) :
    (sortDesc lt l).Perm l := by
  induction l with
  | nil => exact List.Perm.refl _
  | cons a l ih =>
    rw [sortDesc, List.foldr_cons]
    exact (insertDesc_perm lt a _).trans (ih.cons a)

/-- Inserting into a list that is pairwise not-ascending keeps it so. -/
theorem insertDesc_pairwise {α : Type} (lt : α → α → Bool)
    (hasym : ∀ a b, lt a b = true → lt b a = false)
    (hneg : ∀ a b c, lt a b = false → lt b c = false → lt a c = false)
    (x : α) (l : List α) (hl : l.Pairwise (fun a b => lt a b = false)) :
    (insertDesc lt x l).Pairwise (fun a b => lt a b = false) := by
  induction l with
  | nil => simp [insertDesc]
  | cons y ys ih =>
    rw [List.pairwise_cons] at hl
    rw [insertDesc]
    by_cases h : lt x y = true
    · rw [if_pos h]
      rw [List.pairwise_cons]
      refine ⟨?_, ih hl.2⟩
      intro z hz
      rcases List.mem_cons.mp ((insertDesc_perm lt x ys).mem_iff.mp hz) with hzx | hz2
      · rw [hzx]
        exact hasym x y h
      · exact hl.1 z hz2
    · rw [if_neg h]
      have hx : lt x y = false := by revert h; cases lt x y <;> simp
      rw [List.pairwise_cons]
      refine ⟨?_, List.pairwise_cons.mpr hl⟩
      intro z hz
      rcases List.mem_cons.mp hz with rfl | hz2
      · exact hx
      · exact hneg x y z hx (hl.1 z hz2)

/-- The stable descending sort is pairwise not-ascending. -/
theorem sortDesc_pairwise {α : Type} (lt : α → α → Bool)
    (hasym : ∀ a b, lt a b = true → lt b a = false)
    (hneg : ∀ a b c, lt a b = false → lt b c = false → lt a c = false)
    (l : List α) : (sortDesc lt l).Pairwise (fun a b => lt a b = false) := by
  induction l with
  | nil => simp [sortDesc]
  | cons a l ih =>
    rw [sortDesc, List.foldr_cons]
    exact insertDesc_pairwise lt hasym hneg a _ ih

/-- Filtering the elements with a fixed key through an insertion: the
inserted element lands in front of the equal-key elements (it is only moved
past strictly larger keys). -/
theorem insertDesc_filter {α : Type} (lt : α → α → Bool) (p : α → Bool)
    (hp : ∀ a b, lt a b = true → p a = true → p b = false)
    (x : α) (l : List α) :
    (insertDesc lt x l).filter p =
      if p x = true then x :: l.filter p else l.filter p := by
  induction l with
  | nil => cases hpx : p x <;> simp [insertDesc, List.filter, hpx]
  | cons y ys ih =>
    rw [insertDesc]
    by_cases h : lt x y = true
    · rw [if_pos h, List.filter_cons, ih]
      by_cases hpx : p x = true
      · have hpy : p y = false := hp x y h hpx
        simp [hpx, hpy, List.filter_cons]
      · have hpx2 : p x = false := by revert hpx; cases p x <;> simp
        simp [hpx2, List.filter_cons]
    · rw [if_neg h]
      simp [List.filter_cons]

/-- Stability of the descending sort: the subsequence of elements sharing one
key value is exactly that of the input, in the same order. -/
theorem sortDesc_filter {α : Type} (lt : α → α → Bool) (p : α → Bool)
    (hp : ∀ a b, lt a b = true → p a = true → p b = false) (l : List α) :
    (sortDesc lt l).filter p = l.filter p := by
  induction l with
  | nil => rfl
  | cons a l ih =>
    rw [sortDesc, List.foldr_cons]
    rw [insertDesc_filter lt p hp a _]
    by_cases hpa : p a = true
    · rw [if_pos hpa]
      rw [show List.foldr (insertDesc lt) [] l = sortDesc lt l from rfl, ih]
      simp [List.filter_cons, hpa]
    · rw [if_neg hpa]
      have hpa2 : p a = false := by revert hpa; cases p a <;> simp
      rw [show List.foldr (insertDesc lt) [] l = sortDesc lt l from rfl, ih]
      simp [List.filter_cons, hpa2]

/-! ## C8 — composed payments and the sorted presentation list -/

/-- C8: for every entry of the final plan the payment is
`round(min_payment + extra, 2)` with the extra looked up by the entry's own
`loan_id` (0 when absent); the list is sorted by `payment` descending, is a
permutation of the composed entries, and the sort is stable: entries sharing
a payment value keep their original relative order. -/
theorem c8_payment_plan (minLoans : List (String × LoanInfo))
    (targeted : List (String × ℚ)) :
    (∀ e ∈ makeSortedPaymentList (calcTotalPaymentsForMonth minLoans targeted),
      e.payment = rnd2 (e.min_payment + ((List.lookup e.loan_id targeted).getD 0))) ∧
    List.Pairwise (fun a b => b.payment ≤ a.payment)
      (makeSortedPaymentList (calcTotalPaymentsForMonth minLoans targeted)) ∧
    (makeSortedPaymentList (calcTotalPaymentsForMonth minLoans targeted)).Perm
      ((calcTotalPaymentsForMonth minLoans targeted).map toEntry) ∧
    ∀ q : ℚ, (makeSortedPaymentList (calcTotalPaymentsForMonth minLoans targeted)).filter
        (fun e => decide (e.payment = q)) =
      ((calcTotalPaymentsForMonth minLoans targeted).map toEntry).filter
        (fun e => decide (e.payment = q)) := by
  have hasym : ∀ a b : PaymentPlanEntry,
      decide (a.payment < b.payment) = true → decide (b.payment < a.payment) = false := by
    intro a b hab
    exact decide_eq_false (not_lt.mpr (le_of_lt (of_decide_eq_true hab)))
  have hneg : ∀ a b c : PaymentPlanEntry,
      decide (a.payment < b.payment) = false → decide (b.payment < c.payment) = false →
      decide (a.payment < c.payment) = false := by
    intro a b c hab hbc
    exact decide_eq_false (not_lt.mpr (le_trans
      (not_lt.mp (of_decide_eq_false hbc)) (not_lt.mp (of_decide_eq_false hab))))
  refine ⟨?_, ?_, ?_, ?_⟩
  · intro e he
    rw [makeSortedPaymentList] at he
    have he2 := (sortDesc_perm _ _).subset he
    obtain ⟨pe, hpe, rfl⟩ := List.mem_map.mp he2
    obtain ⟨a, ha, rfl⟩ := List.mem_map.mp hpe
    rfl
  · rw [makeSortedPaymentList]
    exact (sortDesc_pairwise _ hasym hneg _).imp
      (fun h => not_lt.mp (of_decide_eq_false h))
  · rw [makeSortedPaymentList]
    exact sortDesc_perm _ _
  · intro q
    rw [makeSortedPaymentList]
    apply sortDesc_filter
    intro a b hab hpa
    apply decide_eq_false
    intro hc
    have h1 := of_decide_eq_true hab
    rw [of_decide_eq_true hpa, hc] at h1
    exact lt_irrefl q h1

/-- Witness: the plan for one loan (minimum $10) with a $5 extra. -/
theorem c8_payment_plan_witness :
    (∀ e ∈ makeSortedPaymentList
        (calcTotalPaymentsForMonth [("A", dupRow1.info)] [("A", 5)]),
      e.payment = rnd2 (e.min_payment + ((List.lookup e.loan_id [("A", 5)]).getD 0))) ∧
    List.Pairwise (fun a b => b.payment ≤ a.payment)
      (makeSortedPaymentList (calcTotalPaymentsForMonth [("A", dupRow1.info)] [("A", 5)])) ∧
    (makeSortedPaymentList
      (calcTotalPaymentsForMonth [("A", dupRow1.info)] [("A", 5)])).Perm
      ((calcTotalPaymentsForMonth [("A", dupRow1.info)] [("A", 5)]).map toEntry) ∧
    ∀ q : ℚ, (makeSortedPaymentList
        (calcTotalPaymentsForMonth [("A", dupRow1.info)] [("A", 5)])).filter
        (fun e => decide (e.payment = q)) =
      ((calcTotalPaymentsForMonth [("A", dupRow1.info)] [("A", 5)]).map toEntry).filter
        (fun e => decide (e.payment = q)) :=
  c8_payment_plan [("A", dupRow1.info)] [("A", 5)]

/-! ## C10 — the trend narrative -/

/-- C10: REFUTED as stated.  For current $4500 against last month's $5000 the
code renders "down 500.0🤩 from": the amount is NOT printed with two
decimals ("500.00"), and the fixed phrasing contains an emoji, so the claimed
verbatim text "down 500.00 from" never appears. -/
theorem c10_trend_counterexample :
    downOrUp 4500 5000 = "down 500.0🤩 from" ∧
    downOrUp 4500 5000 ≠ "down 500.00 from" := by
  have h1 : downOrUp 4500 5000 = "down " ++ fv 500 ++ "🤩 from" := by
    rw [downOrUp]
    norm_num
  have h2 : fv 500 = "500.0" := by
    have hc : pyRoundCents 500 = 50000 := by norm_num [pyRoundCents]
    rw [fv, hc]
    decide
  rw [h1, h2]
  constructor
  · decide
  · decide

/-- C10 amended: the narrative amount is `abs(current - last)` rounded
half-to-even to cents and rendered with thousands separators in Python's
shortest float style (a trailing ".0" on whole amounts), and exactly one of
the three emoji-decorated phrasings is selected by exact comparison: "down
{amount}🤩 from" iff current < last, "the same 😓 as" iff equal, "up
{amount} 😵 from" otherwise. -/
theorem c10_trend_phrase (cur last : ℚ) :
    (cur < last → downOrUp cur last = "down " ++ fv |cur - last| ++ "🤩 from") ∧
    (cur = last → downOrUp cur last = "the same 😓 as") ∧
    (last < cur → downOrUp cur last = "up " ++ fv |cur - last| ++ " 😵 from") := by
  refine ⟨fun h => ?_, fun h => ?_, fun h => ?_⟩
  · rw [downOrUp, if_pos h, abs_sub_comm,
      abs_of_nonneg (by linarith : (0 : ℚ) ≤ last - cur)]
  · subst h
    rw [downOrUp, if_neg (lt_irrefl cur), if_pos rfl]
  · rw [downOrUp, if_neg (not_lt.mpr (le_of_lt h)), if_neg (ne_of_gt h),
      abs_of_pos (by linarith : (0 : ℚ) < cur - last)]

/-- Witness: current $2 against last month's $1 selects the "up" phrasing. -/
theorem c10_trend_phrase_witness :
    downOrUp 2 1 = "up " ++ fv |(2 : ℚ) - 1| ++ " 😵 from" :=
  (c10_trend_phrase 2 1).2.2 (by norm_num)
